import Mathlib

/-!
Verification of the `variable` template-tag module (`variable.py`).

The development shallowly embeds the module's pure core:

* `TOKEN_REGEX` / `get_token_groups` — the attribute tokenizer, embedded as an
  explicit backtracking scanner with the exact semantics of the Python regex
  `(\w+)=(?:(".*?")(?<!\\")|(\w+))(?:(?= )|$)` under `re.findall` (left-to-right,
  non-overlapping scan; lazy quoted body; greedy bare word; negative lookbehind
  excluding a trailing escaped quote; end anchored at a space lookahead or
  end of input).
* `do_variable` — the tag hook; the host parser calls are external, so the
  embedding keeps the fallible `str.index(' ')` step and the token-group
  extraction that the hook performs on the raw tag text.
* `LazyVariable` — the memoizing lazy fragment; the host engine's
  lexer/parser/render pipeline used by `_resolve_value` is an external
  collaborator and is passed in as an explicit `host` function.
* `TemplateVariableNode.render` / `managed_custom_context` — the scoped block
  node; the context is a stack of mapping frames, body rendering is an explicit
  function that may fail, and the push/update/yield/pop protocol is embedded
  exactly.
-/

set_option autoImplicit false

namespace DjangoVariable

/-- Python 2 `\w` with no `re.UNICODE` flag: ASCII letters, digits, underscore. -/
def isWordChar (c : Char) : Bool :=
  ('a' ≤ c && c ≤ 'z') || ('A' ≤ c && c ≤ 'Z') || ('0' ≤ c && c ≤ '9') || c = '_'

/-- The value alternative captured by `TOKEN_REGEX`: either group 2 (the quoted
capture, quotes included, as `re` returns it) or group 3 (the bare word). -/
inductive ValCapture where
  | quoted (group2 : List Char)
  | bare (word : List Char)
deriving DecidableEq, Repr

/-- One `re.findall` tuple of `TOKEN_REGEX`: group 1 (the name) plus whichever
value alternative matched. -/
structure TokenMatch where
  name : List Char
  val : ValCapture
deriving DecidableEq, Repr

/-- The quoted alternative `(".*?")(?<!\\")` followed by the end anchor
`(?:(?= )|$)`, entered after the opening quote has been consumed.  `acc` is the
text matched so far by the lazy `.*?`.  Lazy matching tries the earliest
closing quote first; a candidate close is accepted only if the negative
lookbehind holds (the two characters before the match boundary are not `\"`,
i.e. the last content character is not a backslash) and the anchor holds: the
next character is a space, or the position is at end of input, or — since
Python's `$` without `re.MULTILINE` also matches just before a single trailing
newline — exactly one newline remains (the scanner always works on a suffix
that extends to the end of the full input, so a remainder of `['\n']` is
precisely the position before a trailing newline).  A rejected candidate quote
is consumed by `.*?` (which matches any character except a newline) and
scanning resumes. -/
def tryQuoted : List Char → List Char → Option (List Char × List Char)
  | _, [] => none
  | acc, c :: rest =>
    if c = '"' then
      if acc.getLast? ≠ some '\\' ∧
          (rest = [] ∨ rest.head? = some ' ' ∨ rest = ['\n']) then
        some (acc, rest)
      else
        tryQuoted (acc ++ [c]) rest
    else if c = '\n' then none
    else tryQuoted (acc ++ [c]) rest

/-- The bare-word alternative `(\w+)` followed by the end anchor: a greedy
nonempty word run whose end is followed by a space, or by the end of input, or
by a single trailing newline (Python's `$` matches there too; see `tryQuoted`).
Shortening the greedy run can never repair a failed anchor, since the
character after a shorter run is a word character. -/
def matchBare (s : List Char) : Option (ValCapture × List Char) :=
  if s.takeWhile isWordChar ≠ [] ∧
      (s.dropWhile isWordChar = [] ∨ (s.dropWhile isWordChar).head? = some ' ' ∨
        s.dropWhile isWordChar = ['\n']) then
    some (ValCapture.bare (s.takeWhile isWordChar), s.dropWhile isWordChar)
  else
    none

/-- The value alternation of `TOKEN_REGEX`: the quoted alternative is tried
first (with full backtracking through `.*?`), then the bare-word one. -/
def matchValue (s : List Char) : Option (ValCapture × List Char) :=
  match s with
  | '"' :: s1 =>
    match tryQuoted [] s1 with
    | some (content, rest) => some (ValCapture.quoted ('"' :: (content ++ ['"'])), rest)
    | none => matchBare s
  | _ => matchBare s

/-- One attempted match of `TOKEN_REGEX` at the start of `s`: a greedy nonempty
`\w+` name (a shorter run cannot be followed by `=`, so no backtracking is
possible there), the literal `=`, then the value alternation.  On success the
returned rest starts at the match end (the space matched by the lookahead is
not consumed). -/
def matchToken (s : List Char) : Option (TokenMatch × List Char) :=
  if s.takeWhile isWordChar = [] then none
  else
    match s.dropWhile isWordChar with
    | '=' :: s2 =>
      match matchValue s2 with
      | some (v, rest) => some ({ name := s.takeWhile isWordChar, val := v }, rest)
      | none => none
    | _ => none

/-- `re.findall` scan: try a match at the current position; on success continue
at the match end, otherwise advance one character.  The fuel is an upper bound
on the number of steps; every step strictly shortens the text, so any fuel at
least the length of the text gives the full scan. -/
def findallAux : Nat → List Char → List TokenMatch
  | 0, _ => []
  | fuel + 1, s =>
    match matchToken s with
    | some (tok, rest) => tok :: findallAux fuel rest
    | none =>
      match s with
      | [] => []
      | _ :: t => findallAux fuel t

/-- `TOKEN_REGEX.findall(text)`. -/
def findall (s : List Char) : List TokenMatch := findallAux s.length s

/-- Python `str.strip(c)`: remove all leading and all trailing occurrences of
the character `c`. -/
def pyStripChar (c : Char) (l : List Char) : List Char :=
  ((l.dropWhile (fun x => x = c)).reverse.dropWhile (fun x => x = c)).reverse

/-- The value normalization applied by `get_token_groups`:
`match[1].strip('"') if match[1] else match[2]`. -/
def tokenValue : ValCapture → List Char
  | ValCapture.quoted g2 => pyStripChar '"' g2
  | ValCapture.bare w => w

/-- `get_token_groups(text)`: the findall tuples turned into `(name, value)`
pairs, stripping quote characters from a quoted capture and taking a bare
capture verbatim. -/
def get_token_groups (text : String) : List (String × String) :=
  (findall text.data).map (fun m => (⟨m.name⟩, ⟨tokenValue m.val⟩))

/-- Python exceptions that can escape the embedded code paths. -/
inductive PyErr where
  | valueError
deriving DecidableEq, Repr

/-- Python `str.index(c)`: the index of the first occurrence of `c`, raising
`ValueError` when `c` does not occur. -/
def str_index (s : List Char) (c : Char) : Except PyErr Nat :=
  match s.findIdx? (fun x => x = c) with
  | some i => Except.ok i
  | none => Except.error PyErr.valueError

/-- The `do_variable` tag hook, up to the host parser calls (which are external
services): it takes `token.contents`, removes the leading tag-name word with
`token_text[token_text.index(' ') + 1:]`, and runs the attribute tokenizer over
the remainder.  The `str.index` step raises `ValueError` when the contents hold
no space. -/
def do_variable (token_contents : String) : Except PyErr (List (String × String)) :=
  match str_index token_contents.data ' ' with
  | Except.error e => Except.error e
  | Except.ok i => Except.ok (get_token_groups ⟨token_contents.data.drop (i + 1)⟩)

/-- Python `str.replace(pat, repl)` for a nonempty pattern: replaces every
non-overlapping occurrence, scanning left to right.  The fuel is an upper bound
on the scan steps; each step consumes at least one character. -/
def strReplace (pat repl : List Char) : Nat → List Char → List Char
  | _, [] => []
  | 0, s => s
  | fuel + 1, s =>
    if pat ≠ [] ∧ pat.isPrefixOf s then
      repl ++ strReplace pat repl fuel (s.drop pat.length)
    else
      match s with
      | [] => []
      | c :: t => c :: strReplace pat repl fuel t

/-- `LazyVariable._replace_django_tags`:
`logic.replace('{[', '{%').replace(']}', '%}')`. -/
def replace_django_tags (logic : String) : String :=
  let step1 := strReplace ("\x7b[".data) ("\x7b%".data) logic.data.length logic.data
  ⟨strReplace ("]\x7d".data) ("%\x7d".data) step1.length step1⟩

/-- `django.utils.safestring.mark_safe`: marks the string as safe for output
without changing its characters; on the character content it is the
identity. -/
def mark_safe (s : String) : String := s

/-- The state of a `LazyVariable` instance: the rewritten fragment text
(`self._logic`) and the single-slot cache (`self._cached_value`, `none` while
the attribute is unset).  The tag library and the captured construction-time
context are consumed only by the external host pipeline and by `__str__`, which
no claim touches, so they are not part of the state. -/
structure LazyVariable where
  logic : String
  cache : Option String
deriving DecidableEq, Repr

/-- `LazyVariable.__init__`: rewrite the private brackets in the fragment text
and start with the cache attribute unset. -/
def LazyVariable.make (logic : String) : LazyVariable :=
  { logic := replace_django_tags logic, cache := none }

/-- A value held in a context frame: either a staged lazy fragment or an
ordinary string value supplied by the surrounding template machinery. -/
inductive Value where
  | lazy (lv : LazyVariable)
  | str (s : String)
deriving DecidableEq, Repr

/-- A context frame: one mapping layer of the context stack, modelled
extensionally as a lookup function (a Python `dict` keyed by strings). -/
def Frame : Type := String → Option Value

/-- The empty dict pushed by `context.push()`. -/
def Frame.empty : Frame := fun _ => none

/-- Python `d[k] = v` on a dict. -/
def Frame.insert (f : Frame) (k : String) (v : Value) : Frame :=
  fun n => if n = k then some v else f n

/-- Python `d.update(other)`: every key of `other` is set in `d`. -/
def Frame.updateWith (f other : Frame) : Frame :=
  fun n =>
    match other n with
    | some v => some v
    | none => f n

/-- The Django rendering context: a stack of mapping frames, head = top. -/
structure Context where
  frames : List Frame

/-- `context.push()`: a new empty dict goes on top of the stack. -/
def Context.push (c : Context) : Context := ⟨Frame.empty :: c.frames⟩

/-- `context.pop()`: the top dict leaves the stack. -/
def Context.pop (c : Context) : Context := ⟨c.frames.tail⟩

/-- `custom_context_dict.update(variables_context)` applied to the dict on top
of the stack. -/
def Context.updateTop (c : Context) (d : Frame) : Context :=
  match c.frames with
  | [] => ⟨[]⟩
  | f :: r => ⟨Frame.updateWith f d :: r⟩

def lookupFrames : List Frame → String → Option Value
  | [], _ => none
  | f :: r, n =>
    match f n with
    | some v => some v
    | none => lookupFrames r n

/-- Context variable lookup: the frames are searched top-down and the first
frame holding the name wins. -/
def Context.lookup (c : Context) (n : String) : Option Value :=
  lookupFrames c.frames n

/-- `LazyVariable.resolve(context)`: return the cached value when the cache
attribute is set; otherwise run `_resolve_value` — whose lexer/parser/render
pipeline is the external `host` collaborator applied to `self._logic` and the
given context — store the result in the cache, and return it.  The result is
passed through `mark_safe`; an error from the host propagates and the method
returns before the cache attribute is assigned.  The updated instance state is
returned alongside the outcome. -/
def LazyVariable.resolve (host : String → Context → Except PyErr String)
    (lv : LazyVariable) (context : Context) :
    Except PyErr String × LazyVariable :=
  match lv.cache with
  | some value => (Except.ok (mark_safe value), lv)
  | none =>
    match host lv.logic context with
    | Except.ok value => (Except.ok (mark_safe value), { lv with cache := some value })
    | Except.error e => (Except.error e, lv)

/-- The staging loop of `managed_custom_context`:
`variables_context[name] = LazyVariable(logic, tags, context)` for each parsed
`(name, logic)` pair, starting from the empty dict.  A later pair with the same
name overwrites the earlier entry. -/
def stageVariables (tokens : List (String × String)) : Frame :=
  tokens.foldl (fun d p => Frame.insert d p.1 (Value.lazy (LazyVariable.make p.2))) Frame.empty

/-- The context the block body is rendered against: `context.push()` followed
by `custom_context_dict.update(variables_context)`. -/
def bodyContext (tokens : List (String × String)) (context : Context) : Context :=
  (context.push).updateTop (stageVariables tokens)

/-- `TemplateVariableNode.render` together with `managed_custom_context`: stage
the lazy variables, push a frame, merge the staged dict into it, run the body
against the extended context, and pop the frame unconditionally (the `finally`
block) whether the body returned or raised.  The body — the concatenated
rendering of the child node list — is an explicit fallible function; the pair
returned is the body outcome and the context left behind after the pop. -/
def TemplateVariableNode.render (tokens : List (String × String))
    (body : Context → Except PyErr String) (context : Context) :
    Except PyErr String × Context :=
  let c := bodyContext tokens context
  (body c, c.pop)

/-- Modelled from the spec (§4.2, §8): the host engine's tokenize/parse/render
pipeline on fragment text holding no template directive renders the text
itself.  The host engine is an excluded external collaborator; this is the
instance of it used by the concrete spec scenarios. -/
def hostPlain : String → Context → Except PyErr String :=
  fun s _ => Except.ok s

/-- Modelled from the spec (§8): the host engine's variable node for a body
consisting of a single variable reference.  It looks the name up in the
context; a staged lazy fragment is resolved (against the plain-text host), an
ordinary string renders as itself, and a missing name renders as the empty
string (Django's invalid-variable default). -/
def varNodeBody (name : String) : Context → Except PyErr String :=
  fun ctx =>
    match ctx.lookup name with
    | some (Value.lazy lv) => (lv.resolve hostPlain ctx).1
    | some (Value.str s) => Except.ok s
    | none => Except.ok ""

/-- Following the spec's words for claim C3: from a quoted capture, strip
exactly one leading and one trailing quote character — the text strictly
between the surrounding pair of quotes — and take a bare capture verbatim. -/
def tokenValueSpecC3 : ValCapture → List Char
  | ValCapture.quoted g2 => (g2.drop 1).dropLast
  | ValCapture.bare w => w

/-- The attribute tokenizer as claim C3 describes it: identical to
`get_token_groups` except for the one-quote-each-side normalization. -/
def get_token_groups_specC3 (text : String) : List (String × String) :=
  (findall text.data).map (fun m => (⟨m.name⟩, ⟨tokenValueSpecC3 m.val⟩))

/-- Claim C3 at one input: the code's extraction agrees with the
one-quote-each-side normalization the claim states. -/
def claimC3 (t : String) : Prop :=
  get_token_groups t = get_token_groups_specC3 t

/-- A one-frame context with an empty frame, used to instantiate the general
theorems on a concrete input. -/
def ctx0 : Context := ⟨[Frame.empty]⟩

/-- A second, different context (no frames at all). -/
def ctx1 : Context := ⟨[]⟩

/-- A host pipeline that renders every fragment to the string A. -/
def hostA : String → Context → Except PyErr String := fun _ _ => Except.ok ("A")

/-- A host pipeline that always raises. -/
def hostErrB : String → Context → Except PyErr String :=
  fun _ _ => Except.error PyErr.valueError

/-- The instance state reached after a lazy fragment with logic A has been
resolved once: the cache cell holds the rendered string. -/
def lvA1 : LazyVariable := { logic := "A", cache := some ("A") }

/-- The findall tuple produced for the input text x="ab". -/
def mQuoted : TokenMatch :=
  { name := ['x'], val := ValCapture.quoted ['"', 'a', 'b', '"'] }

/-- The findall tuple produced for the input text x="a". -/
def mQuotedA : TokenMatch :=
  { name := ['x'], val := ValCapture.quoted ['"', 'a', '"'] }

/-! ### Structural facts about the scanner -/

theorem findallAux_succ (fuel : Nat) (s : List Char) :
    findallAux (fuel + 1) s =
      match matchToken s with
      | some (tok, rest) => tok :: findallAux fuel rest
      | none =>
        match s with
        | [] => []
        | _ :: t => findallAux fuel t := rfl

theorem findallAux_matched (fuel : Nat) (s : List Char) (tok : TokenMatch)
    (rest : List Char) (htok : matchToken s = some (tok, rest)) :
    findallAux (fuel + 1) s = tok :: findallAux fuel rest := by
  rw [findallAux_succ, htok]

theorem findallAux_empty (fuel : Nat) : findallAux (fuel + 1) [] = [] := rfl

theorem findallAux_skip (fuel : Nat) (c : Char) (t : List Char)
    (htok : matchToken (c :: t) = none) :
    findallAux (fuel + 1) (c :: t) = findallAux fuel t := by
  rw [findallAux_succ, htok]

theorem tryQuoted_some : ∀ (s acc content rest : List Char),
    tryQuoted acc s = some (content, rest) →
    content.getLast? ≠ some '\\' ∧ rest.length < s.length
  | [], _, _, _ => by intro h; simp [tryQuoted] at h
  | c :: t, acc, content, rest => by
    intro h
    unfold tryQuoted at h
    by_cases hq : c = '"'
    · rw [if_pos hq] at h
      by_cases hcond : acc.getLast? ≠ some '\\' ∧
          (t = [] ∨ t.head? = some ' ' ∨ t = ['\n'])
      · rw [if_pos hcond] at h
        cases h
        exact ⟨hcond.1, by simp⟩
      · rw [if_neg hcond] at h
        have ih := tryQuoted_some t (acc ++ [c]) content rest h
        exact ⟨ih.1, Nat.lt_succ_of_lt ih.2⟩
    · rw [if_neg hq] at h
      by_cases hn : c = '\n'
      · rw [if_pos hn] at h; exact absurd h (by simp)
      · rw [if_neg hn] at h
        have ih := tryQuoted_some t (acc ++ [c]) content rest h
        exact ⟨ih.1, Nat.lt_succ_of_lt ih.2⟩

theorem matchBare_some (s : List Char) (v : ValCapture) (rest : List Char)
    (h : matchBare s = some (v, rest)) :
    ∃ w, v = ValCapture.bare w ∧ w ≠ [] ∧ w.all isWordChar = true ∧
      rest.length < s.length := by
  unfold matchBare at h
  split_ifs at h with hc
  · cases h
    refine ⟨s.takeWhile isWordChar, rfl, hc.1, ?_, ?_⟩
    · exact List.all_eq_true.mpr (fun x hx => List.mem_takeWhile_imp hx)
    · have hlen : (s.takeWhile isWordChar).length + (s.dropWhile isWordChar).length
          = s.length := by
        conv_rhs => rw [← List.takeWhile_append_dropWhile isWordChar s]
        rw [List.length_append]
      have hpos : 0 < (s.takeWhile isWordChar).length := List.length_pos.mpr hc.1
      omega

theorem matchValue_some (s : List Char) (v : ValCapture) (rest : List Char)
    (h : matchValue s = some (v, rest)) :
    rest.length < s.length ∧
    (∀ g2, v = ValCapture.quoted g2 →
      ∃ c, g2 = '"' :: (c ++ ['"']) ∧ c.getLast? ≠ some '\\') ∧
    (∀ w, v = ValCapture.bare w → w ≠ [] ∧ w.all isWordChar = true) := by
  unfold matchValue at h
  split at h
  next s1 =>
    cases htq : tryQuoted [] s1 with
    | some pr =>
      obtain ⟨content, rest1⟩ := pr
      rw [htq] at h
      cases h
      have hq := tryQuoted_some s1 [] content rest htq
      refine ⟨by simpa using Nat.lt_succ_of_lt hq.2, ?_, ?_⟩
      · intro g2 hg2
        cases hg2
        exact ⟨content, rfl, hq.1⟩
      · intro w hw; exact ValCapture.noConfusion hw
    | none =>
      rw [htq] at h
      obtain ⟨w, hv, hw1, hw2, hlen⟩ := matchBare_some _ v rest h
      subst hv
      refine ⟨hlen, ?_, ?_⟩
      · intro g2 hg2; exact ValCapture.noConfusion hg2
      · intro w' hw'; cases hw'; exact ⟨hw1, hw2⟩
  next =>
    obtain ⟨w, hv, hw1, hw2, hlen⟩ := matchBare_some _ v rest h
    subst hv
    refine ⟨hlen, ?_, ?_⟩
    · intro g2 hg2; exact ValCapture.noConfusion hg2
    · intro w' hw'; cases hw'; exact ⟨hw1, hw2⟩

theorem matchToken_some (s : List Char) (m : TokenMatch) (rest : List Char)
    (h : matchToken s = some (m, rest)) :
    (m.name ≠ [] ∧ m.name.all isWordChar = true) ∧
    (∀ g2, m.val = ValCapture.quoted g2 →
      ∃ c, g2 = '"' :: (c ++ ['"']) ∧ c.getLast? ≠ some '\\') ∧
    (∀ w, m.val = ValCapture.bare w → w ≠ [] ∧ w.all isWordChar = true) ∧
    rest.length < s.length := by
  unfold matchToken at h
  split_ifs at h with hname
  split at h
  next s2 heq =>
    cases hmv : matchValue s2 with
    | some pr =>
      obtain ⟨v, rest1⟩ := pr
      rw [hmv] at h
      cases h
      have hval := matchValue_some s2 v rest hmv
      refine ⟨⟨hname, List.all_eq_true.mpr (fun x hx => List.mem_takeWhile_imp hx)⟩,
        hval.2.1, hval.2.2, ?_⟩
      have hlen : (s.takeWhile isWordChar).length + (s.dropWhile isWordChar).length
          = s.length := by
        conv_rhs => rw [← List.takeWhile_append_dropWhile isWordChar s]
        rw [List.length_append]
      rw [heq] at hlen
      have hpos : 0 < (s.takeWhile isWordChar).length := List.length_pos.mpr hname
      have hlt := hval.1
      simp only [List.length_cons] at hlen
      omega
    | none => rw [hmv] at h; exact absurd h (by simp)
  next => exact absurd h (by simp)

theorem matchToken_nil : matchToken [] = none := rfl

theorem findallAux_mem : ∀ (fuel : Nat) (s : List Char) (m : TokenMatch),
    m ∈ findallAux fuel s →
    (m.name ≠ [] ∧ m.name.all isWordChar = true) ∧
    (∀ g2, m.val = ValCapture.quoted g2 →
      ∃ c, g2 = '"' :: (c ++ ['"']) ∧ c.getLast? ≠ some '\\') ∧
    (∀ w, m.val = ValCapture.bare w → w ≠ [] ∧ w.all isWordChar = true)
  | 0, s, m => by intro hm; simp [findallAux] at hm
  | fuel + 1, s, m => by
    intro hm
    cases htok : matchToken s with
    | some pr =>
      obtain ⟨tok, rest⟩ := pr
      rw [findallAux_matched fuel s tok rest htok] at hm
      rcases List.mem_cons.mp hm with h | h
      · subst h
        have hmt := matchToken_some s m rest htok
        exact ⟨hmt.1, hmt.2.1, hmt.2.2.1⟩
      · exact findallAux_mem fuel rest m h
    | none =>
      cases s with
      | nil =>
        rw [findallAux_empty fuel] at hm
        simp at hm
      | cons c t =>
        rw [findallAux_skip fuel c t htok] at hm
        exact findallAux_mem fuel t m hm

theorem findall_mem (t : List Char) (m : TokenMatch) (hm : m ∈ findall t) :
    (m.name ≠ [] ∧ m.name.all isWordChar = true) ∧
    (∀ g2, m.val = ValCapture.quoted g2 →
      ∃ c, g2 = '"' :: (c ++ ['"']) ∧ c.getLast? ≠ some '\\') ∧
    (∀ w, m.val = ValCapture.bare w → w ≠ [] ∧ w.all isWordChar = true) :=
  findallAux_mem t.length t m hm

theorem findallAux_nil_iff : ∀ (fuel : Nat) (s : List Char), s.length ≤ fuel →
    (findallAux fuel s = [] ↔ ∀ i, matchToken (s.drop i) = none)
  | 0, s => by
    intro hle
    have hs : s = [] := List.length_eq_zero.mp (Nat.le_zero.mp hle)
    subst hs
    simp [findallAux, matchToken_nil]
  | fuel + 1, s => by
    intro hle
    cases htok : matchToken s with
    | some pr =>
      obtain ⟨tok, rest⟩ := pr
      constructor
      · intro h
        rw [findallAux_matched fuel s tok rest htok] at h
        exact absurd h (by simp)
      · intro h
        have h0 := h 0
        rw [List.drop_zero, htok] at h0
        exact absurd h0 (by simp)
    | none =>
      cases s with
      | nil =>
        simp [findallAux_empty fuel, matchToken_nil]
      | cons c t =>
        have ih := findallAux_nil_iff fuel t (Nat.le_of_succ_le_succ (by simpa using hle))
        rw [findallAux_skip fuel c t htok, ih]
        constructor
        · intro h i
          cases i with
          | zero => simpa using htok
          | succ j => simpa using h j
        · intro h i
          have hj := h (i + 1)
          simpa using hj

theorem dropWhile_head_false {A : Type} (p : A → Bool) (l : List A)
    (h : ∀ a, l.head? = some a → p a = false) : l.dropWhile p = l := by
  cases l with
  | nil => rfl
  | cons a t => rw [List.dropWhile_cons, if_neg (by simp [h a rfl])]

theorem pyStripChar_wrap (content : List Char)
    (h1 : content.head? ≠ some '"') (h2 : content.getLast? ≠ some '"') :
    pyStripChar '"' ('"' :: (content ++ ['"'])) = content := by
  unfold pyStripChar
  rw [List.dropWhile_cons, if_pos (by decide)]
  cases content with
  | nil => simp
  | cons c cs =>
    have hc : ¬ (c = '"') := fun e => h1 (by simp [e])
    rw [List.cons_append]
    rw [dropWhile_head_false _ (c :: (cs ++ ['"']))
      (by intro a ha
          have hac : a = c := by have hca := ha; simp at hca; exact hca.symm
          subst hac
          exact decide_eq_false hc)]
    rw [show (c :: (cs ++ ['"'])) = (c :: cs) ++ ['"'] from rfl]
    rw [List.reverse_append]
    rw [show (['"'] : List Char).reverse = ['"'] from rfl]
    rw [List.singleton_append, List.dropWhile_cons, if_pos (by decide)]
    rw [dropWhile_head_false _ ((c :: cs).reverse)
      (by intro a ha
          rw [List.head?_reverse] at ha
          have had : ¬ (a = '"') := fun e => h2 (by rw [ha, e])
          exact decide_eq_false had)]
    rw [List.reverse_reverse]

/-! ### The claims -/

/-- Claim C1: every render of the scoped block node pushes exactly one frame
(the body runs against a context one frame deeper) and pops exactly one frame
unconditionally, so whether the body returned normally or raised, the context
coming out of the call has the same frame count as the context going in. -/
theorem render_pushpop_balanced (tokens : List (String × String))
    (body : Context → Except PyErr String) (context : Context) :
    (bodyContext tokens context).frames.length = context.frames.length + 1 ∧
    ((TemplateVariableNode.render tokens body context).2).frames.length
      = context.frames.length :=
  ⟨rfl, rfl⟩

/-- Claim C2: when a lazy fragment whose cache is unset resolves successfully,
the cache cell is written with the returned string, and every subsequent
resolve call on the resulting instance — for any context argument and even for
any host pipeline, showing the fragment is not re-tokenized, re-parsed or
re-rendered — returns that identical string and leaves the instance (hence the
cache cell, written exactly once) unchanged. -/
theorem lazy_resolve_memoized (host : String → Context → Except PyErr String)
    (lv lv1 : LazyVariable) (c1 : Context) (r : String)
    (hnone : lv.cache = none)
    (h : lv.resolve host c1 = (Except.ok r, lv1)) :
    lv1.cache = some r ∧
    ∀ (host2 : String → Context → Except PyErr String) (c2 : Context),
      lv1.resolve host2 c2 = (Except.ok r, lv1) := by
  unfold LazyVariable.resolve at h
  rw [hnone] at h
  cases hh : host lv.logic c1 with
  | ok value =>
    rw [hh] at h
    cases h
    constructor
    · rfl
    · intro host2 c2
      rfl
  | error e =>
    rw [hh] at h
    exact absurd h (by simp)

theorem lazy_resolve_memoized_app :
    (LazyVariable.make ("A")).cache = none ∧
    (LazyVariable.make ("A")).resolve hostA ctx0 = (Except.ok ("A"), lvA1) ∧
    lvA1.cache = some ("A") ∧
    lvA1.resolve hostErrB ctx1 = (Except.ok ("A"), lvA1) :=
  ⟨rfl, rfl,
   (lazy_resolve_memoized hostA (LazyVariable.make ("A")) lvA1 ctx0 ("A") rfl rfl).1,
   (lazy_resolve_memoized hostA (LazyVariable.make ("A")) lvA1 ctx0 ("A") rfl rfl).2
     hostErrB ctx1⟩

/-- Claim C3, refuted as stated: on the input x=(three quotes) the quoted
capture is the three-character text quote-quote-quote, whose strictly-between
text is one quote character, while the code's strip removes every leading and
trailing quote and returns the empty string — so stripping is not limited to
exactly one quote character per side. -/
theorem value_onestrip_refuted : ¬ claimC3 ("x=\"\"\"") := by
  unfold claimC3
  decide

/-- Claim C3, amended: a bare capture is returned verbatim; a quoted capture is
always quote-delimited and is returned with all leading and all trailing quote
characters removed (Python str.strip semantics), which coincides with the text
strictly between the surrounding pair of quotes whenever that text neither
starts nor ends with a quote character. -/
theorem value_normalization_amended (t : String) (m : TokenMatch)
    (hm : m ∈ findall t.data) :
    (∀ w, m.val = ValCapture.bare w → tokenValue m.val = w) ∧
    (∀ g2, m.val = ValCapture.quoted g2 →
      tokenValue m.val = pyStripChar '"' g2 ∧
      (∃ content, g2 = '"' :: (content ++ ['"'])) ∧
      (∀ content, g2 = '"' :: (content ++ ['"']) →
        content.head? ≠ some '"' → content.getLast? ≠ some '"' →
        tokenValue m.val = (g2.drop 1).dropLast)) := by
  have hshape := findall_mem t.data m hm
  constructor
  · intro w hw
    rw [hw]
    rfl
  · intro g2 hg2
    obtain ⟨content, hcontent, _hbs⟩ := hshape.2.1 g2 hg2
    refine ⟨by rw [hg2]; rfl, ⟨content, hcontent⟩, ?_⟩
    intro content2 hc2 hhead hlast
    rw [hg2, hc2]
    show pyStripChar '"' ('"' :: (content2 ++ ['"']))
      = (('"' :: (content2 ++ ['"'])).drop 1).dropLast
    rw [pyStripChar_wrap content2 hhead hlast]
    rw [show (('"' :: (content2 ++ ['"'])).drop 1) = content2 ++ ['"'] from rfl]
    rw [List.dropLast_concat]

theorem value_normalization_amended_app :
    mQuoted ∈ findall (("x=\"ab\"").data) ∧
    tokenValue mQuoted.val = ((['"', 'a', 'b', '"'] : List Char).drop 1).dropLast :=
  ⟨by decide,
   ((value_normalization_amended ("x=\"ab\"") mQuoted (by decide)).2
      ['"', 'a', 'b', '"'] rfl).2.2 ['a', 'b'] rfl (by decide) (by decide)⟩

/-- Claim C4: the spec's no-attribute scenario does not parse — with
token contents equal to the bare tag name (no space), the hook's
str.index call raises ValueError before any attribute extraction or body
rendering can happen, contradicting the documented scenario in which the tag
with an empty attribute list renders its body. -/
theorem do_variable_no_attrs_raises :
    do_variable ("variable") = Except.error PyErr.valueError := rfl

/-- Claim C5: staging is last-write-wins — after the staging loop, a name maps
to the lazy fragment built from the value of its last occurrence in the
attribute list; concretely, the tag text variable x="first" x="second"
tokenizes to both pairs in order and the block body that references x renders
the string second. -/
theorem render_last_write_wins :
    (∀ (ts : List (String × String)) (n v : String),
      stageVariables (ts ++ [(n, v)]) n = some (Value.lazy (LazyVariable.make v))) ∧
    do_variable ("variable x=\"first\" x=\"second\"")
      = Except.ok [("x", "first"), ("x", "second")] ∧
    (TemplateVariableNode.render [("x", "first"), ("x", "second")]
        (varNodeBody ("x")) ctx0).1 = Except.ok ("second") := by
  refine ⟨?_, rfl, rfl⟩
  intro ts n v
  unfold stageVariables
  rw [List.foldl_append]
  simp [List.foldl_cons, List.foldl_nil, Frame.insert]

/-- Claim C6: the staged names live only in the newly pushed frame — inside
the body every staged name resolves to its staged lazy fragment through the
top frame — and after the frame is popped the context is exactly the pre-call
context, so every lookup (injected names included) resolves exactly as it did
before the render call and no injected binding leaks out of the block. -/
theorem render_no_leakage (tokens : List (String × String))
    (body : Context → Except PyErr String) (context : Context) :
    (TemplateVariableNode.render tokens body context).2 = context ∧
    (∀ n, ((TemplateVariableNode.render tokens body context).2).lookup n
      = context.lookup n) ∧
    (∀ n lv, stageVariables tokens n = some lv →
      (bodyContext tokens context).lookup n = some lv) := by
  refine ⟨rfl, fun n => rfl, ?_⟩
  intro n lv hstage
  show lookupFrames
    (Frame.updateWith Frame.empty (stageVariables tokens) :: context.frames) n
    = some lv
  simp [lookupFrames, Frame.updateWith, Frame.empty, hstage]

theorem render_no_leakage_app :
    (TemplateVariableNode.render [("x", "1")] (varNodeBody ("x")) ctx0).2 = ctx0 ∧
    (bodyContext [("x", "1")] ctx0).lookup ("x")
      = some (Value.lazy (LazyVariable.make ("1"))) :=
  ⟨(render_no_leakage [("x", "1")] (varNodeBody ("x")) ctx0).1,
   (render_no_leakage [("x", "1")] (varNodeBody ("x")) ctx0).2.2 ("x")
     (Value.lazy (LazyVariable.make ("1"))) rfl⟩

/-- Claim C7: the tokenizer is a total function — embedded as a plain Lean
function it returns a list on every input, never an error — whose result is
empty exactly when no suffix position of the input admits a token match, and
which silently skips malformed fragments lying between tokens, as on the
concrete input where stray punctuation surrounds two valid tokens. -/
theorem tokenizer_total_and_skipping :
    (∀ t : String, get_token_groups t = [] ↔ ∀ i, matchToken (t.data.drop i) = none) ∧
    get_token_groups ("- a=1 ; b=\"2\" -") = [("a", "1"), ("b", "2")] := by
  constructor
  · intro t
    unfold get_token_groups
    rw [List.map_eq_nil_iff]
    unfold findall
    exact findallAux_nil_iff t.data.length t.data le_rfl
  · rfl

/-- Claim C8: every pair the tokenizer returns has a nonempty name made only
of ASCII letters, digits and underscores — the characters matched by the
name group of the token pattern. -/
theorem token_names_word_chars (t : String) (p : String × String)
    (hp : p ∈ get_token_groups t) :
    p.1.data ≠ [] ∧ p.1.data.all isWordChar = true := by
  unfold get_token_groups at hp
  obtain ⟨m, hm, hpm⟩ := List.mem_map.mp hp
  have hshape := findall_mem t.data m hm
  subst hpm
  exact ⟨hshape.1.1, hshape.1.2⟩

theorem token_names_word_chars_app :
    ("a", "1") ∈ get_token_groups ("a=1") ∧
    ("a" : String).data ≠ [] ∧ ("a" : String).data.all isWordChar = true :=
  ⟨by decide,
   (token_names_word_chars ("a=1") ("a", "1") (by decide)).1,
   (token_names_word_chars ("a=1") ("a", "1") (by decide)).2⟩

/-- Claim C9: whenever the quoted alternative matches, the quoted capture ends
in a quote character that is not preceded by a backslash — the negative
lookbehind excludes a trailing escaped quote from the match by construction,
forcing the match to extend to a later closing quote instead. -/
theorem quoted_capture_never_escaped_end (t : String) (m : TokenMatch)
    (hm : m ∈ findall t.data) (g2 : List Char)
    (hq : m.val = ValCapture.quoted g2) :
    g2.getLast? = some '"' ∧ (g2.dropLast).getLast? ≠ some '\\' := by
  have hshape := findall_mem t.data m hm
  obtain ⟨content, hcontent, hbs⟩ := hshape.2.1 g2 hq
  subst hcontent
  constructor
  · rw [show ('"' :: (content ++ ['"'])) = ('"' :: content) ++ ['"'] from rfl]
    exact List.getLast?_concat _
  · rw [show ('"' :: (content ++ ['"'])) = ('"' :: content) ++ ['"'] from rfl,
      List.dropLast_concat]
    cases content with
    | nil => decide
    | cons a l =>
      rw [List.getLast?_cons_cons]
      exact hbs

theorem quoted_capture_never_escaped_end_app :
    mQuotedA ∈ findall (("x=\"a\"").data) ∧
    (['"', 'a', '"'] : List Char).getLast? = some '"' ∧
    ((['"', 'a', '"'] : List Char).dropLast).getLast? ≠ some '\\' :=
  ⟨by decide,
   (quoted_capture_never_escaped_end ("x=\"a\"") mQuotedA (by decide)
      ['"', 'a', '"'] rfl).1,
   (quoted_capture_never_escaped_end ("x=\"a\"") mQuotedA (by decide)
      ['"', 'a', '"'] rfl).2⟩

/-- Claim C10: when the first resolution of a lazy fragment fails, the
exception propagates with the instance unchanged — the cache cell is still
unset — and a subsequent resolve call on the same instance re-runs the full
host evaluation (here: a later call with a succeeding host performs the
evaluation and only then writes the cache) instead of returning any cached
result. -/
theorem lazy_resolve_error_no_cache (host : String → Context → Except PyErr String)
    (lv : LazyVariable) (c1 : Context) (e : PyErr)
    (hnone : lv.cache = none)
    (herr : host lv.logic c1 = Except.error e) :
    lv.resolve host c1 = (Except.error e, lv) ∧
    ∀ (host2 : String → Context → Except PyErr String) (c2 : Context) (v : String),
      host2 lv.logic c2 = Except.ok v →
      lv.resolve host2 c2 = (Except.ok (mark_safe v), { lv with cache := some v }) := by
  constructor
  · unfold LazyVariable.resolve
    rw [hnone, herr]
  · intro host2 c2 v hok
    unfold LazyVariable.resolve
    rw [hnone, hok]

theorem lazy_resolve_error_no_cache_app :
    (LazyVariable.make ("B")).resolve hostErrB ctx0
      = (Except.error PyErr.valueError, LazyVariable.make ("B")) ∧
    (LazyVariable.make ("B")).resolve hostA ctx1
      = (Except.ok ("A"), { LazyVariable.make ("B") with cache := some ("A") }) :=
  ⟨(lazy_resolve_error_no_cache hostErrB (LazyVariable.make ("B")) ctx0
      PyErr.valueError rfl rfl).1,
   (lazy_resolve_error_no_cache hostErrB (LazyVariable.make ("B")) ctx0
      PyErr.valueError rfl rfl).2 hostA ctx1 ("A") rfl⟩

end DjangoVariable
